import Mathlib

/-!
Verification of the crossword CSP solver (`generate.py`).

The solver's state is `self.domains`, a Python dict mapping each slot
(`Variable`) to a set of candidate words.  We embed it as an association
list `DomStore` (dict key order is significant in Python and is modelled
by list order; Python sets of words are modelled as lists, which coincide
with the source behaviour whenever the lists are duplicate-free, as the
sets of the source always are).  Words are lists of characters; Python's
`word[i]` is modelled by `wordAt` (total, with a default character:
`generate.py` only indexes at overlap offsets, which lie inside the word
for the inputs the program constructs).

In-place set mutation and dict rebinding are modelled by value passing.
The one place where Python reference semantics is observable is
`backtrack`'s shallow snapshot `self.domains.copy()`: the copied dict
shares its word-set objects with the live dict, so `self.domains =
domains_backup` recovers the pre-branch contents only for the slot that
was rebound (`self.domains[variable] = {value}` allocates a fresh set);
every other slot keeps all in-place removals performed during the failed
branch.  The embedding `backtrack` below reproduces exactly that:
restoring keeps the current (possibly pruned) contents of every slot
except the selected `variable`, which reverts to its snapshot contents.
-/

inductive Direction : Type where
  | across : Direction
  | down : Direction
deriving DecidableEq, Repr

/-- Modelled from the spec: the Puzzle Model's `Variable` class
(`crossword.py` is not among the source files).  A slot is identified by
its starting cell, direction and length; equality is on all fields. -/
structure Variable : Type where
  row : Nat
  col : Nat
  dir : Direction
  length : Nat
deriving DecidableEq, Repr

/-- Words are lists of characters. -/
abbrev Word : Type := List Char

/-- Total model of Python's `word[i]`. -/
def wordAt (w : Word) (i : Nat) : Char := w.getD i '?'

/-- Modelled from the spec: the Puzzle Model (`crossword.py` is not among
the source files).  It exposes the slot set, the vocabulary and the
symmetric overlap function mapping an ordered pair of slots to `none`
(no shared cell) or a pair of character offsets. -/
structure Crossword : Type where
  vars : List Variable
  words : List Word
  overlaps : Variable → Variable → Option (Nat × Nat)

/-- Modelled from the spec: slot `u` is a neighbor of `v` iff it is a
different slot and `overlap(v, u)` is not `None`. -/
def Crossword.neighbors (cw : Crossword) (v : Variable) : List Variable :=
  cw.vars.filter (fun u => u != v && (cw.overlaps v u).isSome)

/-- Modelled from the spec: invariants of the Puzzle Model — the overlap
function is irreflexive and symmetric up to transposition of the two
offsets ("overlap(A,B) defined ⇒ overlap(B,A) = (j, i)"). -/
structure CrosswordWF (cw : Crossword) : Prop where
  irrefl : ∀ v, cw.overlaps v v = none
  symm : ∀ u v i j, cw.overlaps u v = some (i, j) → cw.overlaps v u = some (j, i)

/-- Embedding of `self.domains`: a dict from slots to candidate-word sets. -/
abbrev DomStore : Type := List (Variable × List Word)

/-- Embedding of an assignment: a dict from slots to words. -/
abbrev Assign : Type := List (Variable × Word)

/-- Dict read `self.domains[v]` (first matching key). -/
def dget (d : DomStore) (v : Variable) : List Word :=
  match d with
  | [] => []
  | (u, ws) :: rest => if u = v then ws else dget rest v

/-- Dict write `self.domains[v] = ws`: replaces the value in place if the
key is present, appends otherwise (Python dict item assignment). -/
def dset (d : DomStore) (v : Variable) (ws : List Word) : DomStore :=
  match d with
  | [] => [(v, ws)]
  | (u, ws') :: rest => if u = v then (u, ws) :: rest else (u, ws') :: dset rest v ws

/-- Dict read `assignment.get(v)` / `v in assignment`. -/
def alookup (a : Assign) (v : Variable) : Option Word :=
  match a with
  | [] => none
  | (u, w) :: rest => if u = v then some w else alookup rest v

/-- Dict write `assignment[v] = w`. -/
def aInsert (a : Assign) (v : Variable) (w : Word) : Assign :=
  match a with
  | [] => [(v, w)]
  | (u, w') :: rest => if u = v then (u, w) :: rest else (u, w') :: aInsert rest v w

/-- Embedding of `CrosswordCreator.__init__`'s domain store: every slot
starts with a copy of the full vocabulary. -/
def initialDomains (cw : Crossword) : DomStore :=
  cw.vars.map (fun v => (v, cw.words))

/-- Embedding of `enforce_node_consistency`: for every slot remove each
candidate whose length differs from the slot's length. -/
def enforce_node_consistency (d : DomStore) : DomStore :=
  d.map (fun p => (p.1, p.2.filter (fun w => p.1.length == w.length)))

/-- Embedding of the loop of `revise`: iterate over a copy of
`self.domains[x]`, removing each word with no matching partner in
`self.domains[y]` at the overlap offsets; the flag records whether any
removal occurred. -/
def reviseLoop (dy : List Word) (ix iy : Nat) : List Word → List Word × Bool
  | [] => ([], false)
  | wx :: rest =>
    let r := reviseLoop dy ix iy rest
    if dy.any (fun wy => wordAt wx ix == wordAt wy iy) then (wx :: r.1, r.2)
    else (r.1, true)

/-- Embedding of `revise(x, y)`: returns the updated store and the
`revised` flag. -/
def revise (cw : Crossword) (d : DomStore) (x y : Variable) : DomStore × Bool :=
  match cw.overlaps x y with
  | none => (d, false)
  | some (ix, iy) =>
    let r := reviseLoop (dget d y) ix iy (dget d x)
    (dset d x r.1, r.2)

/-- Embedding of the default worklist of `ac3(None)`: every arc
`(variable, neighbor)` in variable order. -/
def defaultArcs (cw : Crossword) : List (Variable × Variable) :=
  cw.vars.foldl (fun acc v => acc ++ (cw.neighbors v).map (fun n => (v, n))) []

/-- Embedding of the worklist loop of `ac3`, with explicit fuel for the
unbounded `while arcs:` loop (`none` means the fuel ran out; the Python
loop always terminates, so every terminating run is reproduced by a large
enough fuel).  Returns the final store and the boolean result. -/
def ac3 (cw : Crossword) : Nat → List (Variable × Variable) → DomStore →
    Option (DomStore × Bool)
  | _, [], d => some (d, true)
  | 0, _ :: _, _ => none
  | fuel + 1, (x, y) :: rest, d =>
    let r := revise cw d x y
    if r.2 then
      if (dget r.1 x).length = 0 then some (r.1, false)
      else ac3 cw fuel
        (rest ++ ((cw.neighbors x).filter (fun z => z != y)).map (fun z => (z, x))) r.1
    else ac3 cw fuel rest r.1

/-- Embedding of `assignment_complete`: every key of `self.domains` is
assigned. -/
def assignment_complete (d : DomStore) (a : Assign) : Bool :=
  (d.map Prod.fst).all (fun v => (alookup a v).isSome)

/-- Embedding of the loop of `consistent`: length check, conflict check
against every assigned neighbor, then the duplicate check against the
accumulated `counter` set. -/
def consistentLoop (cw : Crossword) (a : Assign) :
    List (Variable × Word) → List Word → Bool
  | [], _ => true
  | (v, w) :: rest, counter =>
    if v.length != w.length then false
    else if (cw.neighbors v).any (fun n =>
        match alookup a n, cw.overlaps v n with
        | some nw, some (i, j) => wordAt w i != wordAt nw j
        | _, _ => false) then false
    else if counter.contains w then false
    else consistentLoop cw a rest (w :: counter)

/-- Embedding of `consistent(assignment)`. -/
def consistent (cw : Crossword) (a : Assign) : Bool :=
  consistentLoop cw a a []

/-- Embedding of the incompatibility count of `order_domain_values`: for
a candidate `value` of `var`, the number of words in the domains of
unassigned neighbors that mismatch it at the overlap offsets. -/
def countIncompat (cw : Crossword) (d : DomStore) (a : Assign) (var : Variable)
    (value : Word) : Nat :=
  (cw.neighbors var).foldl (fun acc n =>
    if (alookup a n).isSome then acc
    else match cw.overlaps var n with
      | none => acc
      | some (i, j) => acc + (dget d n).countP (fun nw => wordAt value i != wordAt nw j)) 0

/-- Embedding of `order_domain_values`: candidates of `var` sorted (stably,
as Python's `sorted`) by ascending incompatibility count. -/
def order_domain_values (cw : Crossword) (d : DomStore) (var : Variable)
    (a : Assign) : List Word :=
  let counter := (dget d var).map (fun v => (v, countIncompat cw d a var v))
  (counter.insertionSort (fun p q => p.2 ≤ q.2)).map Prod.fst

/-- Key order used by `select_unassigned_variable`: Python's tuple order
on `(domain size, -degree)`. -/
def selKey (p q : Variable × Int × Int) : Prop :=
  p.2.1 < q.2.1 ∨ (p.2.1 = q.2.1 ∧ p.2.2 ≤ q.2.2)

instance : DecidableRel selKey := fun p q => by
  unfold selKey; infer_instance

/-- Embedding of `select_unassigned_variable`: among unassigned slots,
sort stably by `(len(domain), -len(neighbors))` and take the first
(`none` only when every slot is assigned, where Python would raise). -/
def select_unassigned_variable (cw : Crossword) (d : DomStore) (a : Assign) :
    Option Variable :=
  let unassigned := (d.map Prod.fst).filter (fun v => (alookup a v).isNone)
  let pairs := unassigned.map
    (fun v => (v, ((dget d v).length : Int), -((cw.neighbors v).length : Int)))
  ((pairs.insertionSort selKey).map Prod.fst).head?

/-- Embedding of the inference comprehension of `backtrack`: unassigned
slots whose domain has collapsed to a single candidate, in dict order. -/
def inferredSingletons (d : DomStore) (a : Assign) : List Variable :=
  (d.map Prod.fst).filter (fun v => (alookup a v).isNone && (dget d v).length == 1)

/-- Embedding of `backtrack(assignment)` with explicit fuel for the
recursion (`none` means the fuel ran out; the source recursion always
terminates, so every run is reproduced by a large enough fuel).  On
termination it returns the result (`some` assignment, or `none` for "no
solution") together with the final contents of `self.domains` as seen by
the caller, so that the caller's restore can be applied to them (see the
remark on Python reference semantics at the top of the file).

Each iteration of the `for value in ...` loop snapshots the store
(`domains_backup`, a shallow dict copy, of which only the selected
slot's contents survive a later restore — `backupVar` below) and the
assignment (restored by rebinding the name, modelled by reusing `a`).
Python's early `return result` is modelled by making the remaining
iterations of the fold no-ops once a result is found. -/
def backtrack (cw : Crossword) (acFuel : Nat) :
    Nat → DomStore → Assign → Option (Option Assign × DomStore)
  | 0, _, _ => none
  | fuel + 1, d, a =>
    if assignment_complete d a then some (some a, d)
    else
      match select_unassigned_variable cw d a with
      | none => some (none, d)
      | some var0 =>
        (order_domain_values cw d var0 a).foldl (fun acc value =>
          match acc with
          | none => none
          | some (some r, dF) => some (some r, dF)
          | some (none, dCur) =>
            let backupVar := dget dCur var0
            if consistent cw a then
              let a1 := aInsert a var0 value
              let d1 := dset dCur var0 [value]
              match ac3 cw acFuel ((cw.neighbors var0).map (fun n => (n, var0))) d1 with
              | none => none
              | some (d2, inferences) =>
                if inferences then
                  let a2 := (inferredSingletons d2 a1).foldl
                    (fun acc2 v => aInsert acc2 v ((dget d2 v).headD [])) a1
                  match backtrack cw acFuel fuel d2 a2 with
                  | none => none
                  | some (some r, d3) =>
                    if r.isEmpty then some (none, dset d3 var0 backupVar)
                    else some (some r, d3)
                  | some (none, d3) => some (none, dset d3 var0 backupVar)
                else some (none, dset d2 var0 backupVar)
            else some (none, dset dCur var0 backupVar)) (some (none, d))

/-- Embedding of `solve`: node consistency, AC-3 (whose boolean result is
discarded, as in the source), then backtracking from the empty
assignment.  `none` means a fuel ran out; otherwise `some` carries the
returned assignment or `None`. -/
def solve (cw : Crossword) (acFuel btFuel : Nat) : Option (Option Assign) :=
  let d0 := enforce_node_consistency (initialDomains cw)
  match ac3 cw acFuel (defaultArcs cw) d0 with
  | none => none
  | some (d1, _) =>
    match backtrack cw acFuel btFuel d1 [] with
    | none => none
    | some (result, _) => some result

/-- Slot used by the concrete two-slot instances (ACROSS, length 3). -/
def vA : Variable := ⟨0, 0, .across, 3⟩

/-- Slot used by the concrete two-slot instances (DOWN, length 3). -/
def vB : Variable := ⟨0, 0, .down, 3⟩

def wCat : Word := ['c', 'a', 't']

def wDog : Word := ['d', 'o', 'g']

/-- Overlap function of the two-slot instances: the slots share their
first cell. -/
def overlapsAB (u v : Variable) : Option (Nat × Nat) :=
  if (u = vA ∧ v = vB) ∨ (u = vB ∧ v = vA) then some (0, 0) else none

/-- Two crossing slots of length 3, vocabulary `{"cat"}`. -/
def cwDup : Crossword := ⟨[vA, vB], [wCat], overlapsAB⟩

/-- Two crossing slots of length 3, vocabulary `{"cat", "dog"}` (the
spec's concrete scenario B, which has no solution). -/
def cwPair : Crossword := ⟨[vA, vB], [wCat, wDog], overlapsAB⟩

/-- Slot X of the grid instance: ACROSS at (0,0), length 4 (top row of
a 3-row by 4-column grid whose fillable cells are the whole top row,
cells (1,0) and (1,2), and cells (2,0)..(2,2)). -/
def vXg : Variable := ⟨0, 0, .across, 4⟩

/-- Slot P of the grid instance: DOWN at (0,0), length 3. -/
def vPg : Variable := ⟨0, 0, .down, 3⟩

/-- Slot Q of the grid instance: DOWN at (0,2), length 3. -/
def vQg : Variable := ⟨0, 2, .down, 3⟩

/-- Slot W of the grid instance: ACROSS at (2,0), length 3. -/
def vWg : Variable := ⟨2, 0, .across, 3⟩

/-- Overlap function of the grid instance, read off the shared cells:
X∩P at (0,0), X∩Q at (0,2), W∩P at (2,0), W∩Q at (2,2); symmetric up to
transposition, irreflexive, and `none` on the non-crossing pairs. -/
def overlapsGrid (u v : Variable) : Option (Nat × Nat) :=
  if u = vXg ∧ v = vPg then some (0, 0) else if u = vPg ∧ v = vXg then some (0, 0)
  else if u = vXg ∧ v = vQg then some (2, 0) else if u = vQg ∧ v = vXg then some (0, 2)
  else if u = vWg ∧ v = vPg then some (0, 2) else if u = vPg ∧ v = vWg then some (2, 0)
  else if u = vWg ∧ v = vQg then some (2, 2) else if u = vQg ∧ v = vWg then some (2, 2)
  else none

def wAMBM : Word := ['a', 'm', 'b', 'm']
def wBMCM : Word := ['b', 'm', 'c', 'm']
def wCMAM : Word := ['c', 'm', 'a', 'm']
def wAMC : Word := ['a', 'm', 'c']
def wANC : Word := ['a', 'n', 'c']
def wAOC : Word := ['a', 'o', 'c']
def wAPC : Word := ['a', 'p', 'c']
def wBMC : Word := ['b', 'm', 'c']
def wBNC : Word := ['b', 'n', 'c']
def wBOC : Word := ['b', 'o', 'c']
def wBPC : Word := ['b', 'p', 'c']
def wCMA : Word := ['c', 'm', 'a']
def wCNA : Word := ['c', 'n', 'a']
def wCMB : Word := ['c', 'm', 'b']

/-- The four-slot grid instance.  Its vocabulary makes the first
candidate tried for X ("ambm") fail only after two propagation steps,
emptying W and pruning P and Q in place. -/
def cwGrid : Crossword :=
  ⟨[vXg, vPg, vQg, vWg],
   [wAMBM, wBMCM, wCMAM, wAMC, wANC, wAOC, wAPC, wBMC, wBNC, wBOC, wBPC,
    wCMA, wCNA, wCMB],
   overlapsGrid⟩

/-- Domain store of `cwGrid` as it stands when `backtrack` is first
entered (node consistency has split the vocabulary by length; the
initial AC-3 pass removes nothing on this instance). -/
def dPreG : DomStore := enforce_node_consistency (initialDomains cwGrid)

/-- A complete consistent solution of `cwGrid`. -/
def solGrid : Assign := [(vXg, wBMCM), (vPg, wBMC), (vQg, wCMA), (vWg, wCNA)]

/-- C1: the claim says `backtrack`'s pre-candidate snapshot is a full
independent copy of the domain store, so that the restore after a failed
candidate branch recovers every slot's pre-candidate candidate set with
no residue.  The source snapshot is `self.domains.copy()`, a shallow
dict copy, and this theorem exhibits the failure on `cwGrid`: trying X's
first candidate "ambm" runs AC-3, which prunes P to the "a.."-words and
Q to the "b.."-words and empties W in place before failing; the restore
recovers only X's contents, so P is left at the four "a.."-words and W
at the empty set instead of their eleven-word pre-candidate domains
(third and fourth conjuncts).  In consequence `solve` returns "no
solution" (first conjunct) although `solGrid` is a complete consistent
assignment of the instance (second conjunct). -/
theorem c1_snapshot_not_independent :
    solve cwGrid 120 10 = some none ∧
    (assignment_complete dPreG solGrid = true ∧ consistent cwGrid solGrid = true) ∧
    (ac3 cwGrid 80 [(vPg, vXg), (vQg, vXg)] (dset dPreG vXg [wAMBM])).map
      (fun p => (p.2, dget (dset p.1 vXg (dget dPreG vXg)) vPg,
                 dget (dset p.1 vXg (dget dPreG vXg)) vWg)) =
      some (false, [wAMC, wANC, wAOC, wAPC], []) ∧
    (dget dPreG vPg ≠ [wAMC, wANC, wAOC, wAPC] ∧ dget dPreG vWg ≠ []) := by decide

/-- C2: the claim says every non-`None` assignment returned by `solve`
is complete and consistent, in particular that no word is assigned to
two distinct slots.  On `cwDup` (two crossing slots, vocabulary
`{"cat"}`) the returned assignment maps both slots to "cat" — the
source checks `consistent` before adding the candidate value and
promotes AC-3-inferred singletons without any consistency check, so the
duplicate-word constraint is never tested on the final assignment. -/
theorem c2_solve_returns_inconsistent_assignment :
    solve cwDup 20 6 = some (some [(vA, wCat), (vB, wCat)]) ∧
    consistent cwDup [(vA, wCat), (vB, wCat)] = false ∧
    vA ≠ vB ∧
    alookup [(vA, wCat), (vB, wCat)] vA = alookup [(vA, wCat), (vB, wCat)] vB := by
  decide

/-- C9: the claim says `solve` returns `None` on every puzzle instance
with no satisfying assignment.  `cwPair` (two crossing slots, vocabulary
`{"cat", "dog"}`, the spec's scenario B) is unsatisfiable — every
complete assignment drawn from the vocabulary is inconsistent (first
conjunct) — yet `solve` returns the non-`None` assignment mapping both
slots to "cat" (second conjunct). -/
theorem c9_unsat_instance_returns_non_none :
    (∀ w1 ∈ cwPair.words, ∀ w2 ∈ cwPair.words,
        consistent cwPair [(vA, w1), (vB, w2)] = false) ∧
    solve cwPair 20 6 = some (some [(vA, wCat), (vB, wCat)]) := by decide

/-- Isolated slot of length 3 whose vocabulary contains only a 4-letter
word: node consistency empties its domain, and the default AC-3
worklist is empty. -/
def cwIso : Crossword := ⟨[vA], [wAMBM], fun _ _ => none⟩

/-- C3 counterexample: the claim also asserts that a `True` result of
`ac3` with the default worklist implies no slot's domain is empty.  On
`cwIso` node consistency empties the only slot's domain; the default
worklist is empty, so `ac3` returns `True` while the domain store has
an empty domain (the source checks emptiness only after a revision that
removed something). -/
theorem c3_empty_domain_counterexample :
    ac3 cwIso 1 (defaultArcs cwIso) (enforce_node_consistency (initialDomains cwIso)) =
      some ([(vA, [])], true) ∧
    dget [(vA, [])] vA = [] := by decide

theorem dget_dset_self (d : DomStore) (v : Variable) (ws : List Word) :
    dget (dset d v ws) v = ws := by
  induction d with
  | nil => simp [dget, dset]
  | cons p rest ih =>
    obtain ⟨u, ws'⟩ := p
    by_cases h : u = v <;> simp [dget, dset, h, ih]

theorem dget_dset_ne (d : DomStore) (v u : Variable) (ws : List Word) (h : u ≠ v) :
    dget (dset d u ws) v = dget d v := by
  induction d with
  | nil => simp [dget, dset, h]
  | cons p rest ih =>
    obtain ⟨u', ws'⟩ := p
    by_cases h' : u' = u
    · subst h'; simp [dget, dset, h]
    · simp [dget, dset, h', ih]

theorem reviseLoop_eq (dy : List Word) (ix iy : Nat) (l : List Word) :
    reviseLoop dy ix iy l =
      (l.filter (fun wx => dy.any (fun wy => wordAt wx ix == wordAt wy iy)),
       !(l.all (fun wx => dy.any (fun wy => wordAt wx ix == wordAt wy iy)))) := by
  induction l with
  | nil => simp [reviseLoop]
  | cons wx rest ih =>
    by_cases h : dy.any (fun wy => wordAt wx ix == wordAt wy iy) <;>
      simp [reviseLoop, ih, h, List.filter_cons]

/-- Arc-consistency of the ordered pair `(x, y)` in a given store: every
candidate of `x` has a matching candidate of `y` at the overlap offsets
(trivially true when the slots do not overlap). -/
def arcOK (cw : Crossword) (d : DomStore) (x y : Variable) : Prop :=
  match cw.overlaps x y with
  | none => True
  | some (ix, iy) =>
    ∀ wx ∈ dget d x, ∃ wy ∈ dget d y, wordAt wx ix = wordAt wy iy

theorem revise_snd_false_iff (cw : Crossword) (d : DomStore) (x y : Variable) :
    (revise cw d x y).2 = false ↔ arcOK cw d x y := by
  unfold revise arcOK
  cases h : cw.overlaps x y with
  | none => simp
  | some p =>
    obtain ⟨ix, iy⟩ := p
    simp [reviseLoop_eq, List.all_eq_true, List.any_eq_true]

theorem dget_revise_self (cw : Crossword) (d : DomStore) (x y ix iy)
    (h : cw.overlaps x y = some (ix, iy)) :
    dget (revise cw d x y).1 x =
      (dget d x).filter (fun wx => (dget d y).any (fun wy => wordAt wx ix == wordAt wy iy)) := by
  simp [revise, h, reviseLoop_eq, dget_dset_self]

theorem dget_revise_ne (cw : Crossword) (d : DomStore) (x y z : Variable) (h : z ≠ x) :
    dget (revise cw d x y).1 z = dget d z := by
  unfold revise
  cases h' : cw.overlaps x y with
  | none => simp
  | some p => obtain ⟨ix, iy⟩ := p; simp [dget_dset_ne _ _ _ _ (Ne.symm h)]

theorem dget_revise_sublist (cw : Crossword) (d : DomStore) (x y v : Variable) :
    List.Sublist (dget (revise cw d x y).1 v) (dget d v) := by
  by_cases hv : v = x
  · subst hv
    cases h : cw.overlaps v y with
    | none => simp [revise, h]
    | some p =>
      obtain ⟨ix, iy⟩ := p
      rw [dget_revise_self cw d v y ix iy h]
      exact List.filter_sublist _
  · rw [dget_revise_ne cw d x y v hv]

theorem revise_fst_of_arcOK (cw : Crossword) (d : DomStore) (x y : Variable)
    (h : arcOK cw d x y) : ∀ v, dget (revise cw d x y).1 v = dget d v := by
  intro v
  by_cases hv : v = x
  · subst hv
    unfold arcOK at h
    cases hov : cw.overlaps v y with
    | none => simp [revise, hov]
    | some p =>
      obtain ⟨ix, iy⟩ := p
      rw [hov] at h
      rw [dget_revise_self cw d v y ix iy hov]
      refine List.filter_eq_self.mpr ?_
      intro wx hwx
      rcases h wx hwx with ⟨wy, hwy, heq⟩
      exact List.any_eq_true.mpr ⟨wy, hwy, beq_iff_eq.mpr heq⟩
  · exact dget_revise_ne cw d x y v hv

theorem dget_enforce (d : DomStore) (v : Variable) :
    dget (enforce_node_consistency d) v =
      (dget d v).filter (fun w => v.length == w.length) := by
  induction d with
  | nil => simp [dget, enforce_node_consistency]
  | cons p rest ih =>
    obtain ⟨u, ws⟩ := p
    simp only [enforce_node_consistency, List.map_cons] at ih ⊢
    by_cases h : u = v
    · subst h; simp [dget]
    · simp [dget, h, ih]

/-- C8: `enforce_node_consistency` is idempotent — running it twice
yields exactly the same domain store as running it once (the second pass
removes nothing, since every surviving word already has the slot's
length). -/
theorem c8_node_consistency_idempotent (d : DomStore) :
    enforce_node_consistency (enforce_node_consistency d) = enforce_node_consistency d := by
  unfold enforce_node_consistency
  rw [List.map_map]
  refine List.map_congr_left ?_
  intro p _
  simp [Function.comp, List.filter_filter]

theorem ac3_sublist (cw : Crossword) :
    ∀ fuel arcs (d d' : DomStore) b, ac3 cw fuel arcs d = some (d', b) →
      ∀ v, List.Sublist (dget d' v) (dget d v) := by
  intro fuel
  induction fuel with
  | zero =>
    intro arcs d d' b h v
    cases arcs with
    | nil =>
      simp only [ac3, Option.some.injEq, Prod.mk.injEq] at h
      rw [h.1]
    | cons arc rest => simp [ac3] at h
  | succ fuel ih =>
    intro arcs d d' b h v
    cases arcs with
    | nil =>
      simp only [ac3, Option.some.injEq, Prod.mk.injEq] at h
      rw [h.1]
    | cons arc rest =>
      obtain ⟨x, y⟩ := arc
      simp only [ac3] at h
      by_cases hr : (revise cw d x y).2
      · rw [if_pos hr] at h
        by_cases hlen : (dget (revise cw d x y).1 x).length = 0
        · rw [if_pos hlen] at h
          simp only [Option.some.injEq, Prod.mk.injEq] at h
          rw [← h.1]
          exact dget_revise_sublist cw d x y v
        · rw [if_neg hlen] at h
          exact (ih _ _ _ _ h v).trans (dget_revise_sublist cw d x y v)
      · rw [if_neg hr] at h
        exact (ih _ _ _ _ h v).trans (dget_revise_sublist cw d x y v)

/-- C7: domains only shrink — after `enforce_node_consistency`, after
`revise` (in any overlap case), and after any terminating run of `ac3`
(whatever its boolean result), every slot's candidate set is a subset of
its previous candidate set and its size never increases. -/
theorem c7_domains_only_shrink (cw : Crossword) (d : DomStore) :
    (∀ v, dget (enforce_node_consistency d) v ⊆ dget d v ∧
      (dget (enforce_node_consistency d) v).length ≤ (dget d v).length) ∧
    (∀ x y v, dget (revise cw d x y).1 v ⊆ dget d v ∧
      (dget (revise cw d x y).1 v).length ≤ (dget d v).length) ∧
    (∀ fuel arcs d' b, ac3 cw fuel arcs d = some (d', b) →
      ∀ v, dget d' v ⊆ dget d v ∧ (dget d' v).length ≤ (dget d v).length) := by
  refine ⟨fun v => ?_, fun x y v => ?_, fun fuel arcs d' b h v => ?_⟩
  · rw [dget_enforce]
    exact ⟨(List.filter_sublist _).subset, (List.filter_sublist _).length_le⟩
  · exact ⟨(dget_revise_sublist cw d x y v).subset,
      (dget_revise_sublist cw d x y v).length_le⟩
  · exact ⟨(ac3_sublist cw fuel arcs d d' b h v).subset,
      (ac3_sublist cw fuel arcs d d' b h v).length_le⟩

/-- Witness store for C7: the post-assignment store of `cwPair` before
propagating the commitment vA := "cat". -/
def dPairC7 : DomStore := dset (enforce_node_consistency (initialDomains cwPair)) vA [wCat]

/-- Witness for C7: a concrete terminating `ac3` run on `cwPair` whose
resulting domain for vB is a subset (and no longer) than before. -/
theorem c7_domains_only_shrink_witness :
    dget [(vA, [wCat]), (vB, [wCat])] vB ⊆ dget dPairC7 vB ∧
    (dget [(vA, [wCat]), (vB, [wCat])] vB).length ≤ (dget dPairC7 vB).length :=
  (c7_domains_only_shrink cwPair dPairC7).2.2 10 [(vB, vA)]
    [(vA, [wCat]), (vB, [wCat])] true (by decide) vB

theorem wf_cwDup : CrosswordWF cwDup := by
  constructor
  · intro v
    simp only [cwDup, overlapsAB]
    split_ifs with h
    · rcases h with ⟨h1, h2⟩ | ⟨h1, h2⟩ <;> subst h1 <;> exact absurd h2 (by decide)
    · rfl
  · intro u v i j h
    simp only [cwDup, overlapsAB] at h ⊢
    split_ifs at h with hc
    simp only [Option.some.injEq, Prod.mk.injEq] at h
    obtain ⟨hi, hj⟩ := h
    subst hi; subst hj
    rcases hc with ⟨h1, h2⟩ | ⟨h1, h2⟩ <;> subst h1 <;> subst h2 <;> simp

/-- C4: characterization of `revise(x, y)` on a well-formed puzzle.  If
the slots do not overlap it changes nothing and reports no revision;
otherwise it keeps exactly the words of `x`'s domain that agree with
some word of `y`'s domain at the overlap offsets, reports a revision iff
at least one word was removed, and leaves every other slot's domain —
in particular `y`'s — untouched. -/
theorem c4_revise_characterization (cw : Crossword) (hwf : CrosswordWF cw)
    (d : DomStore) (x y : Variable) :
    (cw.overlaps x y = none → revise cw d x y = (d, false)) ∧
    (∀ ix iy, cw.overlaps x y = some (ix, iy) →
      dget (revise cw d x y).1 x =
        (dget d x).filter
          (fun wx => (dget d y).any (fun wy => wordAt wx ix == wordAt wy iy)) ∧
      ((revise cw d x y).2 = true ↔
        ∃ wx ∈ dget d x, ∀ wy ∈ dget d y, wordAt wx ix ≠ wordAt wy iy) ∧
      (∀ z, z ≠ x → dget (revise cw d x y).1 z = dget d z) ∧
      dget (revise cw d x y).1 y = dget d y) := by
  constructor
  · intro h; simp [revise, h]
  · intro ix iy h
    have hyx : y ≠ x := by
      intro he
      subst he
      rw [hwf.irrefl] at h
      exact Option.noConfusion h
    refine ⟨dget_revise_self cw d x y ix iy h, ?_,
      fun z hz => dget_revise_ne cw d x y z hz, dget_revise_ne cw d x y y hyx⟩
    simp only [revise, h, reviseLoop_eq, Bool.not_eq_true', List.all_eq_false,
      List.any_eq_true, beq_iff_eq]
    constructor
    · rintro ⟨wx, hwx, hno⟩
      exact ⟨wx, hwx, fun wy hwy heq => hno ⟨wy, hwy, heq⟩⟩
    · rintro ⟨wx, hwx, hno⟩
      exact ⟨wx, hwx, fun h' => by rcases h' with ⟨wy, hwy, heq⟩; exact hno wy hwy heq⟩

/-- Witness for C4: on `cwDup`, revising vA against vB with the full
"cat" domains keeps vA's domain and does not touch vB's. -/
theorem c4_revise_characterization_witness :
    dget (revise cwDup [(vA, [wCat]), (vB, [wCat])] vA vB).1 vB =
      dget [(vA, [wCat]), (vB, [wCat])] vB :=
  (((c4_revise_characterization cwDup wf_cwDup
      [(vA, [wCat]), (vB, [wCat])] vA vB).2 0 0 (by decide)).2.2.2)

/-- C10: the value ordering never filters or duplicates candidates —
`order_domain_values` returns a permutation of the slot's current
domain. -/
theorem c10_order_domain_values_perm (cw : Crossword) (d : DomStore) (var : Variable)
    (a : Assign) : (order_domain_values cw d var a).Perm (dget d var) := by
  unfold order_domain_values
  refine ((List.perm_insertionSort _ _).map Prod.fst).trans ?_
  rw [List.map_map]
  have h : (Prod.fst ∘ fun v => (v, countIncompat cw d a var v)) = fun v : Word => v := rfl
  rw [h, List.map_id']

/-- Count described by the specification of `order_domain_values`: the
number of pairs of an unassigned neighbor and a word in its domain that
mismatch the candidate at the overlap offsets (assigned neighbors
contribute nothing). -/
def ruleOutCount (cw : Crossword) (d : DomStore) (a : Assign) (var : Variable)
    (value : Word) : Nat :=
  ((cw.neighbors var).map (fun n =>
    if (alookup a n).isSome then 0
    else match cw.overlaps var n with
      | none => 0
      | some (i, j) => (dget d n).countP (fun nw => wordAt value i != wordAt nw j))).sum

theorem countIncompat_aux (cw : Crossword) (d : DomStore) (a : Assign)
    (var : Variable) (value : Word) :
    ∀ (l : List Variable) (acc : Nat),
      l.foldl (fun acc n =>
        if (alookup a n).isSome then acc
        else match cw.overlaps var n with
          | none => acc
          | some (i, j) =>
            acc + (dget d n).countP (fun nw => wordAt value i != wordAt nw j)) acc =
      acc + (l.map (fun n =>
        if (alookup a n).isSome then 0
        else match cw.overlaps var n with
          | none => 0
          | some (i, j) =>
            (dget d n).countP (fun nw => wordAt value i != wordAt nw j))).sum := by
  intro l
  induction l with
  | nil => intro acc; simp
  | cons n t ih =>
    intro acc
    simp only [List.foldl_cons, List.map_cons, List.sum_cons]
    rw [ih]
    by_cases h1 : (alookup a n).isSome
    · simp [h1]
    · cases h2 : cw.overlaps var n with
      | none => simp [h1, h2]
      | some p =>
        obtain ⟨i, j⟩ := p
        simp [h1, h2]
        rw [Nat.add_assoc]

theorem countIncompat_eq_ruleOutCount (cw : Crossword) (d : DomStore) (a : Assign)
    (var : Variable) (value : Word) :
    countIncompat cw d a var value = ruleOutCount cw d a var value := by
  unfold countIncompat ruleOutCount
  rw [countIncompat_aux cw d a var value (cw.neighbors var) 0, Nat.zero_add]

theorem pairwise_fst_of_snd {g : Word → Nat} :
    ∀ (l : List (Word × Nat)), (∀ p ∈ l, p.2 = g p.1) →
      l.Pairwise (fun p q => p.2 ≤ q.2) →
      l.Pairwise (fun p q => g p.1 ≤ g q.1) := by
  intro l
  induction l with
  | nil => intro _ _; exact List.Pairwise.nil
  | cons p t ih =>
    intro hmem hp
    rw [List.pairwise_cons] at hp ⊢
    refine ⟨fun q hq => ?_, ih (fun q hq => hmem q (List.mem_cons_of_mem p hq)) hp.2⟩
    have h1 := hmem p (List.mem_cons_self p t)
    have h2 := hmem q (List.mem_cons_of_mem p hq)
    rw [← h1, ← h2]
    exact hp.1 q hq

/-- C6: the incompatibility count computed by `order_domain_values`
agrees with the count described by the claim (first conjunct), and the
returned candidate list is sorted in ascending order of that count
(second conjunct); assigned neighbors are skipped inside the count. -/
theorem c6_order_domain_values_lcv (cw : Crossword) (d : DomStore) (var : Variable)
    (a : Assign) :
    (∀ value, countIncompat cw d a var value = ruleOutCount cw d a var value) ∧
    (order_domain_values cw d var a).Pairwise
      (fun w1 w2 => ruleOutCount cw d a var w1 ≤ ruleOutCount cw d a var w2) := by
  refine ⟨countIncompat_eq_ruleOutCount cw d a var, ?_⟩
  unfold order_domain_values
  rw [List.pairwise_map]
  letI : IsTotal (Word × Nat) (fun p q => p.2 ≤ q.2) := ⟨fun p q => Nat.le_total p.2 q.2⟩
  letI : IsTrans (Word × Nat) (fun p q => p.2 ≤ q.2) := ⟨fun p q s h1 h2 => Nat.le_trans h1 h2⟩
  refine pairwise_fst_of_snd _ (fun p hp => ?_) (List.sorted_insertionSort _ _)
  have hpmem : p ∈ (dget d var).map (fun v => (v, countIncompat cw d a var v)) :=
    (List.mem_insertionSort _).mp hp
  rcases List.mem_map.mp hpmem with ⟨v, _, rfl⟩
  exact countIncompat_eq_ruleOutCount cw d a var v

theorem selKey_total : ∀ p q, selKey p q ∨ selKey q p := by
  intro p q
  unfold selKey
  omega

theorem selKey_trans : ∀ p q s, selKey p q → selKey q s → selKey p s := by
  intro p q s h1 h2
  unfold selKey at *
  omega

/-- C5: on any store with at least one unassigned slot,
`select_unassigned_variable` returns an unassigned slot whose domain
size is minimal among the unassigned slots, and whose neighbor count is
maximal among the unassigned slots attaining that minimal size. -/
theorem c5_select_unassigned_variable (cw : Crossword) (d : DomStore) (a : Assign)
    (h : (d.map Prod.fst).filter (fun v => (alookup a v).isNone) ≠ []) :
    ∃ v, select_unassigned_variable cw d a = some v ∧
      (alookup a v).isNone = true ∧ v ∈ d.map Prod.fst ∧
      ∀ u ∈ d.map Prod.fst, (alookup a u).isNone = true →
        ((dget d v).length ≤ (dget d u).length ∧
         ((dget d u).length = (dget d v).length →
            (cw.neighbors u).length ≤ (cw.neighbors v).length)) := by
  unfold select_unassigned_variable
  letI : IsTotal (Variable × Int × Int) selKey := ⟨selKey_total⟩
  letI : IsTrans (Variable × Int × Int) selKey := ⟨selKey_trans⟩
  set unassigned := (d.map Prod.fst).filter (fun v => (alookup a v).isNone) with hU
  set pairs := unassigned.map
    (fun v => (v, ((dget d v).length : Int), -((cw.neighbors v).length : Int))) with hP
  have hperm := List.perm_insertionSort selKey pairs
  have hsorted := List.sorted_insertionSort selKey pairs
  cases hS : pairs.insertionSort selKey with
  | nil =>
    exfalso
    rw [hS] at hperm
    have hnil : pairs = [] := hperm.symm.eq_nil
    rw [hP] at hnil
    exact h (List.map_eq_nil_iff.mp hnil)
  | cons p t =>
    have hpmem : p ∈ pairs := by
      refine hperm.subset ?_
      rw [hS]
      exact List.mem_cons_self p t
    rw [hP] at hpmem
    rcases List.mem_map.mp hpmem with ⟨v, hvU, hpv⟩
    have hvfacts := List.mem_filter.mp (hU ▸ hvU)
    refine ⟨v, ?_, hvfacts.2, hvfacts.1, ?_⟩
    · show ((pairs.insertionSort selKey).map Prod.fst).head? = some v
      rw [hS, ← hpv]
      rfl
    · intro u hu hun
      have huU : u ∈ unassigned := by
        rw [hU]
        exact List.mem_filter.mpr ⟨hu, hun⟩
      have hupair : (u, ((dget d u).length : Int), -((cw.neighbors u).length : Int)) ∈ pairs := by
        rw [hP]
        exact List.mem_map_of_mem _ huU
      have humem : (u, ((dget d u).length : Int), -((cw.neighbors u).length : Int)) ∈
          pairs.insertionSort selKey := hperm.symm.subset hupair
      rw [hS] at humem hsorted
      rcases List.mem_cons.mp humem with heq | hmem
      · have hu_eq : u = v := by
          rw [← hpv] at heq
          exact congrArg Prod.fst heq
        subst hu_eq
        exact ⟨Nat.le_refl _, fun _ => Nat.le_refl _⟩
      · have hrel := (List.sorted_cons.mp hsorted).1 _ hmem
        rw [← hpv] at hrel
        unfold selKey at hrel
        simp only at hrel
        constructor
        · omega
        · intro hlen
          omega

/-- Witness for C5: on `cwDup` with the empty assignment a qualifying
slot is returned. -/
theorem c5_select_unassigned_variable_witness :
    ∃ v, select_unassigned_variable cwDup (enforce_node_consistency (initialDomains cwDup))
        [] = some v ∧
      (alookup [] v).isNone = true ∧
      v ∈ (enforce_node_consistency (initialDomains cwDup)).map Prod.fst ∧
      ∀ u ∈ (enforce_node_consistency (initialDomains cwDup)).map Prod.fst,
        (alookup [] u).isNone = true →
        ((dget (enforce_node_consistency (initialDomains cwDup)) v).length ≤
          (dget (enforce_node_consistency (initialDomains cwDup)) u).length ∧
         ((dget (enforce_node_consistency (initialDomains cwDup)) u).length =
            (dget (enforce_node_consistency (initialDomains cwDup)) v).length →
          (cwDup.neighbors u).length ≤ (cwDup.neighbors v).length)) :=
  c5_select_unassigned_variable cwDup (enforce_node_consistency (initialDomains cwDup)) []
    (by decide)

/-- Worklist invariant of AC-3: every neighbor arc not on the worklist
is already arc-consistent in the current store. -/
def INV (cw : Crossword) (arcs : List (Variable × Variable)) (d : DomStore) : Prop :=
  ∀ x ∈ cw.vars, ∀ y ∈ cw.neighbors x, (x, y) ∉ arcs → arcOK cw d x y

theorem mem_neighbors (cw : Crossword) (v u : Variable) :
    u ∈ cw.neighbors v ↔ u ∈ cw.vars ∧ u ≠ v ∧ (cw.overlaps v u).isSome = true := by
  unfold Crossword.neighbors
  rw [List.mem_filter]
  simp [bne_iff_ne, and_assoc]

theorem mem_neighbors_symm (cw : Crossword) (hwf : CrosswordWF cw) {p x : Variable}
    (hp : p ∈ cw.vars) (hx : x ∈ cw.neighbors p) : p ∈ cw.neighbors x := by
  rcases (mem_neighbors cw p x).mp hx with ⟨hxv, hxne, hsome⟩
  rcases Option.isSome_iff_exists.mp hsome with ⟨pr, hov⟩
  obtain ⟨i, j⟩ := pr
  refine (mem_neighbors cw x p).mpr ⟨hp, ?_, ?_⟩
  · intro he
    subst he
    rw [hwf.irrefl] at hov
    exact Option.noConfusion hov
  · rw [hwf.symm p x i j hov]
    rfl

theorem arcOK_congr (cw : Crossword) (d d' : DomStore) (x y : Variable)
    (h1 : dget d' x = dget d x) (h2 : dget d' y = dget d y) (h : arcOK cw d x y) :
    arcOK cw d' x y := by
  unfold arcOK at h ⊢
  cases hov : cw.overlaps x y with
  | none => trivial
  | some pr =>
    obtain ⟨ix, iy⟩ := pr
    rw [hov] at h
    rw [h1, h2]
    exact h

theorem arcOK_of_subset (cw : Crossword) (d d' : DomStore) (x y : Variable)
    (h1 : ∀ w ∈ dget d' x, w ∈ dget d x) (h2 : dget d' y = dget d y)
    (h : arcOK cw d x y) : arcOK cw d' x y := by
  unfold arcOK at h ⊢
  cases hov : cw.overlaps x y with
  | none => trivial
  | some pr =>
    obtain ⟨ix, iy⟩ := pr
    rw [hov] at h
    intro wx hwx
    rw [h2]
    exact h wx (h1 wx hwx)

theorem arcOK_after_revise (cw : Crossword) (d : DomStore) (x y : Variable)
    (ix iy : Nat) (hov : cw.overlaps x y = some (ix, iy)) (hyx : y ≠ x) :
    arcOK cw (revise cw d x y).1 x y := by
  unfold arcOK
  rw [hov]
  intro wx hwx
  rw [dget_revise_self cw d x y ix iy hov] at hwx
  rcases List.mem_filter.mp hwx with ⟨_, hkeep⟩
  rcases List.any_eq_true.mp hkeep with ⟨wy, hwy, heq⟩
  refine ⟨wy, ?_, beq_iff_eq.mp heq⟩
  rw [dget_revise_ne cw d x y y hyx]
  exact hwy

theorem arcOK_transpose_preserved (cw : Crossword) (hwf : CrosswordWF cw) (d : DomStore)
    (x y : Variable) (ix iy : Nat) (hov : cw.overlaps x y = some (ix, iy)) (hyx : y ≠ x)
    (h : arcOK cw d y x) : arcOK cw (revise cw d x y).1 y x := by
  unfold arcOK at h ⊢
  have hov' : cw.overlaps y x = some (iy, ix) := hwf.symm x y ix iy hov
  rw [hov'] at h ⊢
  intro wy hwy
  rw [dget_revise_ne cw d x y y hyx] at hwy
  rcases h wy hwy with ⟨wx, hwx, heq⟩
  refine ⟨wx, ?_, heq⟩
  rw [dget_revise_self cw d x y ix iy hov]
  refine List.mem_filter.mpr ⟨hwx, ?_⟩
  exact List.any_eq_true.mpr ⟨wy, hwy, beq_iff_eq.mpr heq.symm⟩

theorem inv_step_not_revised (cw : Crossword) (d : DomStore) (p q : Variable)
    (rest : List (Variable × Variable)) (hinv : INV cw ((p, q) :: rest) d)
    (hr : (revise cw d p q).2 = false) : INV cw rest (revise cw d p q).1 := by
  intro x hx y hy hnot
  have hunch := revise_fst_of_arcOK cw d p q ((revise_snd_false_iff cw d p q).mp hr)
  have hold : arcOK cw d x y := by
    by_cases he : (x, y) = (p, q)
    · have hxp : x = p := congrArg Prod.fst he
      have hyq : y = q := congrArg Prod.snd he
      subst hxp
      subst hyq
      exact (revise_snd_false_iff cw d x y).mp hr
    · refine hinv x hx y hy ?_
      intro hmem
      rcases List.mem_cons.mp hmem with he' | hm
      · exact he he'
      · exact hnot hm
  exact arcOK_congr cw d _ x y (hunch x) (hunch y) hold

theorem inv_step_revised (cw : Crossword) (hwf : CrosswordWF cw) (d : DomStore)
    (p q : Variable) (rest : List (Variable × Variable))
    (hinv : INV cw ((p, q) :: rest) d) (hr : (revise cw d p q).2 = true) :
    INV cw (rest ++ ((cw.neighbors p).filter (fun z => z != q)).map (fun z => (z, p)))
      (revise cw d p q).1 := by
  obtain ⟨ix, iy, hov⟩ : ∃ ix iy, cw.overlaps p q = some (ix, iy) := by
    cases hov : cw.overlaps p q with
    | none => rw [revise, hov] at hr; exact absurd hr (by simp)
    | some pr =>
      obtain ⟨i1, i2⟩ := pr
      exact ⟨i1, i2, rfl⟩
  have hqp : q ≠ p := by
    intro he
    subst he
    rw [hwf.irrefl] at hov
    exact Option.noConfusion hov
  intro x hx y hy hnot
  rw [List.mem_append] at hnot
  push_neg at hnot
  obtain ⟨hnrest, hnmap⟩ := hnot
  have hnm : ¬(y = p ∧ x ∈ cw.neighbors p ∧ x ≠ q) := by
    rintro ⟨h1, h2, h3⟩
    subst h1
    refine hnmap (List.mem_map.mpr ⟨x, List.mem_filter.mpr ⟨h2, ?_⟩, rfl⟩)
    exact bne_iff_ne.mpr h3
  by_cases hyp : y = p
  · have hyMem : p ∈ cw.neighbors x := hyp ▸ hy
    have hx_nb : x ∈ cw.neighbors p := mem_neighbors_symm cw hwf hx hyMem
    have hxq : x = q := by
      by_contra hne
      exact hnm ⟨hyp, hx_nb, hne⟩
    have hold : arcOK cw d q p := by
      have hqv : q ∈ cw.vars := hxq ▸ hx
      have hpn : p ∈ cw.neighbors q := hxq ▸ hyMem
      refine hinv q hqv p hpn ?_
      intro hmem
      rcases List.mem_cons.mp hmem with he | hm
      · exact hqp (congrArg Prod.fst he)
      · have hn := hnrest
        rw [hxq, hyp] at hn
        exact hn hm
    rw [hxq, hyp]
    exact arcOK_transpose_preserved cw hwf d p q ix iy hov hqp hold
  · have hy_unch : dget (revise cw d p q).1 y = dget d y := dget_revise_ne cw d p q y hyp
    by_cases hxp : x = p
    · subst hxp
      by_cases hyq : y = q
      · subst hyq
        exact arcOK_after_revise cw d x y ix iy hov (Ne.symm (fun he => hqp he.symm))
      · have hold : arcOK cw d x y := by
          refine hinv x hx y hy ?_
          intro hmem
          rcases List.mem_cons.mp hmem with he | hm
          · exact hyq (congrArg Prod.snd he)
          · exact hnrest hm
        refine arcOK_of_subset cw d _ x y ?_ hy_unch hold
        intro w hw
        exact (dget_revise_sublist cw d x q x).subset hw
    · have hx_unch := dget_revise_ne cw d p q x hxp
      have hold : arcOK cw d x y := by
        refine hinv x hx y hy ?_
        intro hmem
        rcases List.mem_cons.mp hmem with he | hm
        · exact hxp (congrArg Prod.fst he)
        · exact hnrest hm
      exact arcOK_congr cw d _ x y hx_unch hy_unch hold

theorem mem_foldl_append (f : Variable → List (Variable × Variable)) :
    ∀ (l : List Variable) (init : List (Variable × Variable)) (ar : Variable × Variable),
      ar ∈ l.foldl (fun acc v => acc ++ f v) init ↔ ar ∈ init ∨ ∃ v ∈ l, ar ∈ f v := by
  intro l
  induction l with
  | nil => intro init ar; simp
  | cons v t ih =>
    intro init ar
    rw [List.foldl_cons, ih, List.mem_append]
    constructor
    · rintro (⟨h | h⟩ | ⟨u, hu, h⟩)
      · exact Or.inl h
      · exact Or.inr ⟨v, List.mem_cons_self v t, h⟩
      · exact Or.inr ⟨u, List.mem_cons_of_mem v hu, h⟩
    · rintro (h | ⟨u, hu, h⟩)
      · exact Or.inl (Or.inl h)
      · rcases List.mem_cons.mp hu with he | hm
        · subst he
          exact Or.inl (Or.inr h)
        · exact Or.inr ⟨u, hm, h⟩

theorem inv_defaultArcs (cw : Crossword) (d : DomStore) : INV cw (defaultArcs cw) d := by
  intro x hx y hy hnot
  exfalso
  apply hnot
  unfold defaultArcs
  rw [mem_foldl_append]
  exact Or.inr ⟨x, hx, List.mem_map.mpr ⟨y, hy, rfl⟩⟩

theorem ac3_fixpoint_aux (cw : Crossword) (hwf : CrosswordWF cw) :
    ∀ fuel arcs (d d' : DomStore), INV cw arcs d →
      ac3 cw fuel arcs d = some (d', true) →
      ∀ x ∈ cw.vars, ∀ y ∈ cw.neighbors x, arcOK cw d' x y := by
  intro fuel
  induction fuel with
  | zero =>
    intro arcs d d' hinv h x hx y hy
    cases arcs with
    | nil =>
      simp only [ac3, Option.some.injEq, Prod.mk.injEq] at h
      rw [← h.1]
      exact hinv x hx y hy (List.not_mem_nil _)
    | cons arc rest => simp [ac3] at h
  | succ fuel ih =>
    intro arcs d d' hinv h x hx y hy
    cases arcs with
    | nil =>
      simp only [ac3, Option.some.injEq, Prod.mk.injEq] at h
      rw [← h.1]
      exact hinv x hx y hy (List.not_mem_nil _)
    | cons arc rest =>
      obtain ⟨p, q⟩ := arc
      simp only [ac3] at h
      by_cases hr : (revise cw d p q).2
      · rw [if_pos hr] at h
        by_cases hlen : (dget (revise cw d p q).1 p).length = 0
        · rw [if_pos hlen] at h
          simp at h
        · rw [if_neg hlen] at h
          exact ih _ _ _ (inv_step_revised cw hwf d p q rest hinv hr) h x hx y hy
      · rw [if_neg hr] at h
        exact ih _ _ _
          (inv_step_not_revised cw d p q rest hinv (Bool.not_eq_true _ ▸ hr)) h x hx y hy

/-- C3 (amended): whenever `ac3` run on the default worklist returns
`True` on a well-formed puzzle, the resulting domain store is at an
arc-consistency fixpoint — a subsequent `revise(x, y)` on any ordered
neighbor pair returns `False` and removes nothing.  (The claim's further
assertion that no domain is empty on a `True` result is refuted by
`c3_empty_domain_counterexample`.) -/
theorem c3_ac3_default_fixpoint (cw : Crossword) (hwf : CrosswordWF cw) (fuel : Nat)
    (d d' : DomStore) (h : ac3 cw fuel (defaultArcs cw) d = some (d', true)) :
    ∀ x ∈ cw.vars, ∀ y ∈ cw.neighbors x,
      (revise cw d' x y).2 = false ∧ ∀ v, dget (revise cw d' x y).1 v = dget d' v := by
  intro x hx y hy
  have hok := ac3_fixpoint_aux cw hwf fuel (defaultArcs cw) d d'
    (inv_defaultArcs cw d) h x hx y hy
  exact ⟨(revise_snd_false_iff cw d' x y).mpr hok, revise_fst_of_arcOK cw d' x y hok⟩

/-- Witness for C3: a concrete successful default-worklist `ac3` run on
`cwDup` after which revising (vA, vB) reports no revision and leaves
vB's domain unchanged. -/
theorem c3_ac3_default_fixpoint_witness :
    (revise cwDup [(vA, [wCat]), (vB, [wCat])] vA vB).2 = false ∧
    dget (revise cwDup [(vA, [wCat]), (vB, [wCat])] vA vB).1 vB =
      dget [(vA, [wCat]), (vB, [wCat])] vB :=
  ⟨(c3_ac3_default_fixpoint cwDup wf_cwDup 10 [(vA, [wCat]), (vB, [wCat])]
      [(vA, [wCat]), (vB, [wCat])] (by decide) vA (by decide) vB (by decide)).1,
   (c3_ac3_default_fixpoint cwDup wf_cwDup 10 [(vA, [wCat]), (vB, [wCat])]
      [(vA, [wCat]), (vB, [wCat])] (by decide) vA (by decide) vB (by decide)).2 vB⟩
